import Mathlib

/-!
Shallow embedding of the eXoSearch core (search engine scoring and ranking,
completion computation, viewport metrics, and the dispatcher state machine)
from `src/src/search_engine.cpp`, `src/src/input_handler.h`,
`src/unnamed/part_003` (Application) and `src/unnamed/part_005` (Util).

Strings are modelled as `List Char` (one `Char` per byte; the program only
manipulates single-byte characters).  C++ `int`/`size_t` values are modelled
as `Nat`/`Int`; all scores are non-negative and no arithmetic in the model
can overflow in the source for any input that fits in memory.
-/

namespace ExoSearch

/-- `std::tolower` in the C locale: lower-cases the ASCII letters A..Z and
leaves every other byte unchanged (`Util::to_lower` applies it per byte). -/
def lowerChar (c : Char) : Char :=
  if 65 ≤ c.toNat ∧ c.toNat ≤ 90 then Char.ofNat (c.toNat + 32) else c

/-- `Util::to_lower`: byte-wise lower-casing of a string. -/
def toLower (s : List Char) : List Char := s.map lowerChar

/-- `std::isspace` in the C locale (the whitespace set used by
`std::istringstream` extraction in `Util::tokenize`). -/
def isWS (c : Char) : Bool :=
  c = ' ' || c = '\t' || c = '\n' || c = '\x0b' || c = '\x0c' || c = '\r'

/-- `std::isalnum` in the C locale: ASCII digits and letters. -/
def isAlnumChar (c : Char) : Bool :=
  (48 ≤ c.toNat && c.toNat ≤ 57) || (65 ≤ c.toNat && c.toNat ≤ 90) ||
    (97 ≤ c.toNat && c.toNat ≤ 122)

/-- The whitespace set `" \t"` used by `find_last_of(" \t")` in
`SearchEngine::find_completions` and `SearchEngine::get_completion`. -/
def isSpaceTab (c : Char) : Bool := c = ' ' || c = '\t'

/-- The whitespace-separated chunks of a string, in order, including empty
chunks at consecutive separators.  This models the sequence of words that
`std::istringstream >> word` yields in `Util::tokenize` once the empty
chunks are discarded (stream extraction skips whitespace runs). -/
def wsSplit (l : List Char) : List (List Char) :=
  l.foldr
    (fun c acc =>
      if isWS c then [] :: acc
      else
        match acc with
        | [] => [[c]]
        | w :: ws => (c :: w) :: ws)
    [[]]

/-- `Util::tokenize`: split on whitespace, erase non-alphanumeric bytes from
each word, lower-case it, and drop words that became empty. -/
def tokenize (text : List Char) : List (List Char) :=
  (wsSplit text).filterMap fun w =>
    let w' := toLower (w.filter isAlnumChar)
    if w' = [] then none else some w'

/-- `std::string::find(pat, 0)`: index of the first occurrence of `pat` in
`t`, or `none` for `npos`. -/
def findSub : List Char → List Char → Option Nat
  | [], p => if p = [] then some 0 else none
  | c :: rest, p =>
      if p.isPrefixOf (c :: rest) then some 0
      else (findSub rest p).map (· + 1)

/-- `t.find(p) != npos`: `p` occurs as a contiguous substring of `t`. -/
def containsSub (t p : List Char) : Bool := (findSub t p).isSome

namespace Score

def SequentialKey : Nat := 5000
def SequentialContent : Nat := 3000
def KeyPrefix : Nat := 2000
def KeyContains : Nat := 1000
def WordPrefix : Nat := 100
def WordContains : Nat := 50
def Content : Nat := 10
def Default : Nat := 1
def None : Nat := 0

end Score

namespace Display

def MaxResults : Nat := 10000
def MinLinesPerResult : Nat := 3
def MinVisibleResults : Nat := 2

end Display

def MaxExitCode : Nat := 255
def ExitSuccess : Int := 0
def ExitError : Int := 1

/-- A corpus record (`struct Entry`): unique key, searchable content, and the
pre-tokenized lowercase words derived from the content at ingestion time
(the ingestion step is outside the core; `words` is just a field here). -/
structure Entry where
  key : List Char
  content : List Char
  words : List (List Char)
deriving DecidableEq, Repr

/-- `struct SearchResult`: corpus index paired with the computed score. -/
structure SearchResult where
  index : Nat
  score : Nat
deriving DecidableEq, Repr

/-- The greedy scan of `SearchEngine::has_sequential_match`: find each word
in turn in the remaining suffix, advancing past the match
(`pos = lower.find(word, pos); pos += word.length()`). -/
def seqScan : List Char → List (List Char) → Bool
  | _, [] => true
  | t, w :: ws =>
      match findSub t w with
      | none => false
      | some i => seqScan (t.drop (i + w.length)) ws

/-- `SearchEngine::has_sequential_match`: the words occur in order as
non-overlapping forward-advancing substrings of the lower-cased text. -/
def hasSequentialMatch (text : List Char) (words : List (List Char)) : Bool :=
  if words = [] then false else seqScan (toLower text) words

/-- The per-entry-word loop inside `SearchEngine::score`: fold the record's
words, raising the accumulated tier to `WordPrefix` on a starts-with match
and otherwise to `WordContains` on a substring match. -/
def wordLoop (qw : List Char) (ews : List (List Char)) (acc : Nat) : Nat :=
  ews.foldl
    (fun a ew =>
      if qw.isPrefixOf ew then max a Score.WordPrefix
      else if containsSub ew qw then max a Score.WordContains
      else a)
    acc

/-- The score of one query token against one record in `SearchEngine::score`:
key starts-with / key contains, then the word loop, then content contains,
each later check only raising the running maximum. -/
def tokenScore (lkey lcontent : List Char) (ews : List (List Char))
    (qw : List Char) : Nat :=
  let k :=
    if qw.isPrefixOf lkey then Score.KeyPrefix
    else if containsSub lkey qw then Score.KeyContains
    else Score.None
  let w := wordLoop qw ews k
  if containsSub lcontent qw then max w Score.Content else w

/-- The token loop of `SearchEngine::score`: sum the per-token scores,
aborting with `none` (the C++ `return Score::None`) as soon as a token
scores zero. -/
def tokenSum (lkey lcontent : List Char) (ews : List (List Char)) :
    List (List Char) → Option Nat
  | [] => some 0
  | qw :: rest =>
      if tokenScore lkey lcontent ews qw = Score.None then none
      else (tokenSum lkey lcontent ews rest).map
        (tokenScore lkey lcontent ews qw + ·)

/-- `SearchEngine::score`.  Empty query or empty token list scores
`Default`; otherwise the sequential bonus (key first, content second, only
with at least two tokens) plus the per-token sum, forced to `None` when some
token matches nothing. -/
def score (e : Entry) (q : List Char) : Nat :=
  if q = [] then Score.Default
  else
    let qws := tokenize q
    if qws = [] then Score.Default
    else
      let lkey := toLower e.key
      let lcontent := toLower e.content
      let seq :=
        if 1 < qws.length then
          if hasSequentialMatch e.key qws then Score.SequentialKey
          else if hasSequentialMatch e.content qws then Score.SequentialContent
          else 0
        else 0
      match tokenSum lkey lcontent e.words qws with
      | none => Score.None
      | some s => seq + s

/-- Modelled from the spec: the single highest matching tier of one token
(`KeyPrefix` 2000, `KeyContains` 1000, `WordPrefix` 100, `WordContains` 50,
`Content` 10), written as the maximum of the applicable tiers, to be
compared against the tiered if/else cascade of `SearchEngine::score`. -/
def tierMax (lkey lcontent : List Char) (ews : List (List Char))
    (qw : List Char) : Nat :=
  max (if qw.isPrefixOf lkey then Score.KeyPrefix else 0)
    (max (if containsSub lkey qw then Score.KeyContains else 0)
      (max (if ews.any (fun ew => qw.isPrefixOf ew) then Score.WordPrefix else 0)
        (max (if ews.any (fun ew => containsSub ew qw) then Score.WordContains else 0)
          (if containsSub lcontent qw then Score.Content else 0))))

/-- Modelled from the spec: the record score as the spec states it — the
sequential bonus (at most one of the two, key checked first, only with two
or more tokens) plus, for every token, the single highest matching tier;
zero when some token matches no tier at all. -/
def specScore (e : Entry) (q : List Char) : Nat :=
  let qws := tokenize q
  let lkey := toLower e.key
  let lcontent := toLower e.content
  let seq :=
    if 1 < qws.length then
      if hasSequentialMatch e.key qws then Score.SequentialKey
      else if hasSequentialMatch e.content qws then Score.SequentialContent
      else 0
    else 0
  if qws.any (fun qw => tierMax lkey lcontent e.words qw = 0) then 0
  else seq + (qws.map (tierMax lkey lcontent e.words)).sum

/-- Byte-wise lexicographic strict comparison, as `std::string::operator<`
(which compares through `char_traits<char>::lt`, i.e. unsigned bytes). -/
def lexLt : List Char → List Char → Bool
  | [], [] => false
  | [], _ :: _ => true
  | _ :: _, [] => false
  | a :: as, b :: bs =>
      if a.toNat < b.toNat then true
      else if b.toNat < a.toNat then false
      else lexLt as bs

/-- Placeholder record used to totalize out-of-range corpus lookups (which
are undefined behaviour in the source and unreachable in the program). -/
def noEntry : Entry := ⟨[], [], []⟩

/-- The content string of the record at a corpus index. -/
def contentAt (entries : List Entry) (i : Nat) : List Char :=
  (entries.getD i noEntry).content

/-- The sort comparator of `SearchEngine::search_worker`:
`(a.score != b.score) ? (a.score > b.score) : (content_a < content_b)`. -/
def cmpLt (entries : List Entry) (a b : SearchResult) : Bool :=
  if a.score = b.score then lexLt (contentAt entries a.index) (contentAt entries b.index)
  else decide (b.score < a.score)

/-- The non-strict ordering induced by `cmpLt` (`a` may come before `b`):
a sequence is sorted for `std::ranges::sort` with comparator `cmpLt` exactly
when consecutive elements satisfy `sortRel`. -/
def sortRel (entries : List Entry) (a b : SearchResult) : Prop :=
  cmpLt entries b a = false

instance (entries : List Entry) : DecidableRel (sortRel entries) :=
  fun a b => inferInstanceAs (Decidable (cmpLt entries b a = false))

/-- The scoring loop of `SearchEngine::search_worker`: emit `(i, score)` in
corpus order for every record with a strictly positive score (`i` counts
from the given starting index). -/
def collectFrom (i : Nat) : List Entry → List Char → List SearchResult
  | [], _ => []
  | e :: rest, q =>
      if 0 < score e q then ⟨i, score e q⟩ :: collectFrom (i + 1) rest q
      else collectFrom (i + 1) rest q

/-- The sorted (unsorted-yet-untruncated) match list.  `std::ranges::sort`
is modelled by insertion sort with the comparator's induced ordering: any
result it may produce is sorted for `sortRel` and a permutation of the
input, which is all the properties proved below use. -/
def sortResults (entries : List Entry) (q : List Char) : List SearchResult :=
  List.insertionSort (sortRel entries) (collectFrom 0 entries q)

/-- The published result snapshot of `SearchEngine::search_worker`: scored
matches, sorted, truncated to `Display::MaxResults`. -/
def computeResults (entries : List Entry) (q : List Char) : List SearchResult :=
  (sortResults entries q).take Display.MaxResults

/-- The word after the last space/tab of the query (the whole query if it
has none, empty if the query ends in a space/tab), as computed with
`find_last_of(" \t")` in `find_completions` and `get_completion`. -/
def wordPart (q : List Char) : List Char :=
  (q.reverse.takeWhile (fun c => !isSpaceTab c)).reverse

/-- The query up to and including its last space/tab (empty if none):
the `prefix` string of `SearchEngine::get_completion`. -/
def headPart (q : List Char) : List Char :=
  q.take (q.length - (wordPart q).length)

/-- All completion candidates in collection order: each record's key
followed by its words (`check_candidate` is called on exactly these). -/
def allCands (entries : List Entry) : List (List Char) :=
  (entries.map (fun e => e.key :: e.words)).flatten

/-- Insertion into a `std::set<std::string>`: keep the list sorted by
`operator<` and drop exact duplicates. -/
def setInsert (x : List Char) : List (List Char) → List (List Char)
  | [] => [x]
  | y :: ys =>
      if lexLt x y then x :: y :: ys
      else if lexLt y x then y :: setInsert x ys
      else y :: ys

/-- `SearchEngine::find_completions`: the sorted deduplicated set of
non-empty candidates whose lower-cased form starts with the lower-cased
last query word and is strictly longer than that word. -/
def findCompletions (entries : List Entry) (q : List Char) : List (List Char) :=
  if q = [] || entries = [] then []
  else
    let word := wordPart q
    if word = [] then []
    else
      (allCands entries).foldl
        (fun acc c =>
          if c ≠ [] && (toLower word).isPrefixOf (toLower c) &&
              word.length < c.length then
            setInsert c acc
          else acc)
        []

/-- Length of the longest common prefix of two lists (the scan comparing
`lower_comp[i] == lower_cand[i]` in `SearchEngine::get_completion`). -/
def lcpLen : List Char → List Char → Nat
  | a :: as, b :: bs => if a = b then lcpLen as bs + 1 else 0
  | _, _ => 0

/-- `SearchEngine::get_completion`, with the published completion list as an
explicit argument: reduce the candidates to their case-insensitive longest
common prefix (surface casing from the first candidate) and return
`prefix + comp` only if it still extends the last query word. -/
def getCompletionWith (q : List Char) : List (List Char) → Option (List Char)
  | [] => none
  | c0 :: rest =>
      if q = [] then none
      else
        let pre := headPart q
        let word := wordPart q
        if word = [] then none
        else if c0 = [] then none
        else
          let comp := rest.foldl
            (fun comp cand =>
              if comp = [] then comp
              else if cand = [] then comp
              else
                let ml := lcpLen (toLower comp) (toLower cand)
                if ml < comp.length then comp.take ml else comp)
            c0
          if comp ≠ [] && (toLower word).isPrefixOf (toLower comp) &&
              word.length < comp.length then
            some (pre ++ comp)
          else none

/-- The engine's completion for query `q` once the recompute for `q` has
been published (the synchronous composition of `find_completions` and
`get_completion`). -/
def engineCompletion (entries : List Entry) (q : List Char) :
    Option (List Char) :=
  getCompletionWith q (findCompletions entries q)

/-- `struct DisplayMetrics` with its C++ default initializers. -/
structure DMetrics where
  terminal_height : Nat := 0
  header_lines : Nat := 0
  footer_lines : Nat := 0
  available_lines : Nat := 0
  lines_per_result : Nat := Display.MinLinesPerResult
  max_visible_results : Nat := 0
  dirty : Bool := true
deriving DecidableEq, Repr

/-- The metrics `DisplayManager::measure_display` computes when it cannot
reuse the cached ones, for terminal height `h`. -/
def freshMetrics (h : Nat) : DMetrics :=
  let minFooter := 3
  let header := 3
  let minSpace := Display.MinVisibleResults * Display.MinLinesPerResult
  if minFooter + header + minSpace < h then
    let used := header + minFooter
    let avail := if used < h then h - used else minSpace
    let maxv := avail / Display.MinLinesPerResult
    { terminal_height := h, dirty := false
      footer_lines := minFooter, header_lines := header
      lines_per_result := Display.MinLinesPerResult
      available_lines := avail
      max_visible_results :=
        if maxv < Display.MinVisibleResults then Display.MinVisibleResults
        else maxv }
  else
    { terminal_height := h, dirty := false
      header_lines := header, footer_lines := minFooter
      lines_per_result := Display.MinLinesPerResult
      available_lines := minSpace
      max_visible_results := Display.MinVisibleResults }

/-- `DisplayManager::measure_display`: reuse the old metrics when they are
clean and the terminal height is unchanged and positive, else remeasure. -/
def measureDisplay (h : Nat) (old : DMetrics) : DMetrics :=
  if old.dirty = false ∧ old.terminal_height = h ∧ 0 < h then old
  else freshMetrics h

/-- `struct DisplayState` with its C++ default initializers
(`selected_index = -1` means no selection). -/
structure DState where
  scroll_offset : Nat := 0
  selected_index : Int := -1
  metrics : DMetrics := {}
  last_terminal_height : Nat := 0
deriving DecidableEq, Repr

/-- The dispatcher-visible state of `Application`: display state, locally
stored query, the running flag and the stored exit code. -/
structure AppState where
  state : DState := {}
  query : List Char := []
  running : Bool := true
  exit_code : Int := ExitSuccess
deriving DecidableEq, Repr

/-- `Command`: the tagged variant carried by the bus. -/
inductive Command where
  | RefreshDisplay (st : DState)
  | UpdateQuery (q : List Char)
  | MoveSelection (delta : Int)
  | PageScroll (up : Bool)
  | SelectResult (index : Int)
  | Exit (code : Int)
deriving DecidableEq, Repr

/-- The effect of `DisplayManager::render` on the display state for a fixed
terminal height `h`: refresh the metrics, and on a detected resize
(`last_terminal_height` differs) force a dirty remeasure and record the new
height.  The painting itself has no further effect on the state. -/
def renderUpd (h : Nat) (s : DState) : DState :=
  if s.last_terminal_height = h then
    { s with metrics := measureDisplay h s.metrics }
  else
    { s with
      metrics := measureDisplay h { s.metrics with dirty := true }
      last_terminal_height := h }

/-- `Application::handle_move` for a fixed terminal height and results
snapshot: clamp the selection, scroll minimally to keep it visible, render. -/
def handleMove (h : Nat) (results : List SearchResult) (delta : Int)
    (s : AppState) : AppState :=
  if results = [] then s
  else
    let cnt : Int := results.length
    let sel : Int :=
      if s.state.selected_index < 0 then 0
      else min (max (s.state.selected_index + delta) 0) (cnt - 1)
    let selN := sel.toNat
    let mv := s.state.metrics.max_visible_results
    let scroll :=
      if 0 < mv then
        if selN < s.state.scroll_offset then selN
        else if s.state.scroll_offset + mv ≤ selN then selN - mv + 1
        else s.state.scroll_offset
      else s.state.scroll_offset
    { s with
      state := renderUpd h
        { s.state with selected_index := sel, scroll_offset := scroll } }

/-- `Application::handle_page_scroll`: move the selection by a page
(`max_visible - 1`, at least 1), clamp, scroll to keep it visible, render. -/
def handlePageScroll (h : Nat) (results : List SearchResult) (up : Bool)
    (s : AppState) : AppState :=
  if results = [] then s
  else
    let cnt := results.length
    let mv := s.state.metrics.max_visible_results
    if mv = 0 then s
    else
      let page : Int := (max 1 (mv - 1) : Nat)
      let sel : Int :=
        if up then max 0 (s.state.selected_index - page)
        else min (s.state.selected_index + page) ((cnt : Int) - 1)
      let selN := sel.toNat
      let scroll :=
        if selN < s.state.scroll_offset then selN
        else if s.state.scroll_offset + mv ≤ selN then selN - mv + 1
        else s.state.scroll_offset
      { s with
        state := renderUpd h
          { s.state with selected_index := sel, scroll_offset := scroll } }

/-- `DisplayManager::select`: validate the index against the result list and
the corpus, and return the corpus index clamped to `MaxExitCode`; a negative
`index` turns into a huge `size_t` in the source and fails the same bounds
test. -/
def select (entries : List Entry) (results : List SearchResult)
    (index : Int) : Option Nat :=
  if 0 ≤ index ∧ index.toNat < results.length ∧
      (results.getD index.toNat ⟨0, 0⟩).index < entries.length then
    some (min (results.getD index.toNat ⟨0, 0⟩).index MaxExitCode)
  else none

/-- `Application::handle_select`: resolve a negative index to the current
selection, to row 0 for a single result, or — with several results and no
selection — select row 0 and render without confirming; then confirm via
`DisplayManager::select`, storing the exit code and stopping on success. -/
def handleSelect (entries : List Entry) (results : List SearchResult)
    (index : Int) (h : Nat) (s : AppState) : AppState :=
  if index < 0 ∧ s.state.selected_index < 0 ∧ 1 < results.length then
    { s with state := renderUpd h { s.state with selected_index := 0 } }
  else
    let target : Int :=
      if index < 0 then
        if 0 ≤ s.state.selected_index then s.state.selected_index
        else if results.length = 1 then 0
        else index
      else index
    match select entries results target with
    | some code => { s with exit_code := Int.ofNat code, running := false }
    | none => s

/-- One iteration of `Application::io_worker`'s dispatch for a fixed
terminal height and published results snapshot. -/
def ioStep (entries : List Entry) (h : Nat) (results : List SearchResult)
    (s : AppState) : Command → AppState
  | .RefreshDisplay st =>
      { s with
        state := renderUpd h
          { s.state with
            scroll_offset := st.scroll_offset
            selected_index := st.selected_index
            metrics := { s.state.metrics with dirty := true } } }
  | .UpdateQuery q => { s with query := q }
  | .MoveSelection d => handleMove h results d s
  | .PageScroll up => handlePageScroll h results up s
  | .SelectResult idx => handleSelect entries results idx h s
  | .Exit code => { s with exit_code := code, running := false }

/-- The two-record corpus of the specification's test scenario, with `words`
derived from the content the way ingestion does (`Util::tokenize`). -/
def corpus2 : List Entry :=
  [ ⟨"DOOM".toList, "DOOM 1993 id Software".toList,
      tokenize "DOOM 1993 id Software".toList⟩,
    ⟨"DOOM II".toList, "DOOM II Hell on Earth 1994 id Software".toList,
      tokenize "DOOM II Hell on Earth 1994 id Software".toList⟩ ]

instance : Inhabited Entry := ⟨noEntry⟩

/-- The specification's selection invariant:
`selected_index ∈ [0, result_count) ∪ {-1}` for the results snapshot. -/
def SelInv (results : List SearchResult) (s : AppState) : Prop :=
  s.state.selected_index = -1 ∨
    (0 ≤ s.state.selected_index ∧
      s.state.selected_index < (results.length : Int))

instance (results : List SearchResult) (s : AppState) :
    Decidable (SelInv results s) := by
  unfold SelInv; infer_instance

/-- The specification's viewport invariant: whenever a selection is set and
the viewport is non-degenerate, the selection lies inside
`[scroll_offset, scroll_offset + max_visible)`. -/
def WinInv (s : AppState) : Prop :=
  0 ≤ s.state.selected_index →
    0 < s.state.metrics.max_visible_results →
      s.state.scroll_offset ≤ s.state.selected_index.toNat ∧
        s.state.selected_index.toNat <
          s.state.scroll_offset + s.state.metrics.max_visible_results

instance (s : AppState) : Decidable (WinInv s) := by
  unfold WinInv; infer_instance

/-- The inductive dispatcher invariant for a fixed terminal height `h`: the
two claimed invariants, strengthened by the facts that an unset selection
comes with a zero scroll offset and that the cached metrics are either the
fixed point for height `h` or still the untouched initial metrics (in which
case nothing has been selected or scrolled yet). -/
def DispatchInv (h : Nat) (results : List SearchResult) (s : AppState) : Prop :=
  SelInv results s ∧ WinInv s ∧
    (s.state.selected_index = -1 → s.state.scroll_offset = 0) ∧
    ((s.state.metrics = freshMetrics h ∧ s.state.last_terminal_height = h) ∨
      (s.state.metrics = {} ∧ s.state.scroll_offset = 0 ∧
        s.state.selected_index = -1))

instance (h : Nat) (results : List SearchResult) (s : AppState) :
    Decidable (DispatchInv h results s) := by
  unfold DispatchInv; infer_instance

/-- A twelve-row published results snapshot, used to exhibit the resize
race in the dispatcher's viewport handling. -/
def results12 : List SearchResult := (List.range 12).map (fun i => ⟨i, 1⟩)

/-- A dispatcher state as left by working on a 24-line terminal: row 10
selected, scrolled to 5, metrics measured at height 24 (six visible rows).
Both claimed display invariants hold in it. -/
def resizeState : AppState :=
  { state := { scroll_offset := 5, selected_index := 10,
               metrics := freshMetrics 24, last_terminal_height := 24 } }

/-! ## Helper lemmas -/

theorem tokenize_nil : tokenize [] = [] := rfl

theorem prefix_contains (p t : List Char) (h : p.isPrefixOf t = true) :
    containsSub t p = true := by
  cases t with
  | nil =>
      cases p with
      | nil => rfl
      | cons c cs => simp [List.isPrefixOf] at h
  | cons c rest => simp [containsSub, findSub, h]

theorem any_contains_of_any_pfx (qw : List Char) (ews : List (List Char))
    (h : ews.any (fun ew => qw.isPrefixOf ew) = true) :
    ews.any (fun ew => containsSub ew qw) = true := by
  rw [List.any_eq_true] at h ⊢
  obtain ⟨ew, hmem, hp⟩ := h
  exact ⟨ew, hmem, prefix_contains _ _ hp⟩

theorem ite_chain_max (b1 b2 : Bool) (v1 v2 : Nat) (h : b1 = true → b2 = true)
    (hv : v2 ≤ v1) :
    (if b1 then v1 else if b2 then v2 else 0) =
      max (if b1 then v1 else 0) (if b2 then v2 else 0) := by
  cases b1 <;> cases b2 <;> simp_all

theorem wordLoop_eq (qw : List Char) (ews : List (List Char)) (acc : Nat) :
    wordLoop qw ews acc =
      max acc
        (max (if ews.any (fun ew => qw.isPrefixOf ew) then Score.WordPrefix else 0)
          (if ews.any (fun ew => containsSub ew qw) then Score.WordContains else 0)) := by
  induction ews generalizing acc with
  | nil => simp [wordLoop]
  | cons ew rest ih =>
      have hstep : wordLoop qw (ew :: rest) acc =
          wordLoop qw rest
            (if qw.isPrefixOf ew then max acc Score.WordPrefix
             else if containsSub ew qw then max acc Score.WordContains
             else acc) := by
        simp [wordLoop, List.foldl_cons]
      rw [hstep, ih]
      by_cases h1 : qw.isPrefixOf ew = true
      · have h2 := prefix_contains _ _ h1
        by_cases h3 : rest.any (fun ew => qw.isPrefixOf ew) = true
        · have h4 := any_contains_of_any_pfx _ _ h3
          simp [h1, h2, h3, h4, Score.WordPrefix, Score.WordContains]
        · by_cases h5 : rest.any (fun ew => containsSub ew qw) = true <;>
            simp [h1, h2, h3, h5, Score.WordPrefix, Score.WordContains] <;>
            omega
      · by_cases h2 : containsSub ew qw = true
        · by_cases h3 : rest.any (fun ew => qw.isPrefixOf ew) = true <;>
            by_cases h5 : rest.any (fun ew => containsSub ew qw) = true <;>
            simp [h1, h2, h3, h5, Score.WordPrefix, Score.WordContains] <;>
            omega
        · by_cases h3 : rest.any (fun ew => qw.isPrefixOf ew) = true <;>
            by_cases h5 : rest.any (fun ew => containsSub ew qw) = true <;>
            simp [h1, h2, h3, h5, Score.WordPrefix, Score.WordContains] <;>
            omega

theorem tokenScore_eq_tierMax (lkey lcontent : List Char)
    (ews : List (List Char)) (qw : List Char) :
    tokenScore lkey lcontent ews qw = tierMax lkey lcontent ews qw := by
  have hk : (if qw.isPrefixOf lkey then Score.KeyPrefix
      else if containsSub lkey qw then Score.KeyContains else Score.None) =
      max (if qw.isPrefixOf lkey then Score.KeyPrefix else 0)
        (if containsSub lkey qw then Score.KeyContains else 0) := by
    exact ite_chain_max _ _ _ _ (prefix_contains qw lkey) (by norm_num [Score.KeyPrefix, Score.KeyContains])
  simp only [tokenScore, tierMax, hk, wordLoop_eq]
  by_cases hcc : containsSub lcontent qw = true <;> simp [hcc] <;> omega

theorem tokenSum_eq_none_iff (lk lc : List Char) (ews qws : List (List Char)) :
    tokenSum lk lc ews qws = none ↔ ∃ qw ∈ qws, tokenScore lk lc ews qw = 0 := by
  induction qws with
  | nil => simp [tokenSum]
  | cons qw rest ih =>
      by_cases h : tokenScore lk lc ews qw = Score.None
      · have h0 : tokenScore lk lc ews qw = 0 := h
        simp only [tokenSum, if_pos h]
        constructor
        · intro _; exact ⟨qw, List.mem_cons_self qw rest, h0⟩
        · intro _; trivial
      · simp only [tokenSum, if_neg h]
        rw [Option.map_eq_none', ih]
        have h0 : ¬ tokenScore lk lc ews qw = 0 := h
        constructor
        · rintro ⟨w, hw, hz⟩
          exact ⟨w, List.mem_cons_of_mem _ hw, hz⟩
        · rintro ⟨w, hw, hz⟩
          rcases List.mem_cons.mp hw with rfl | hw'
          · exact absurd hz h0
          · exact ⟨w, hw', hz⟩

theorem tokenSum_eq_some (lk lc : List Char) (ews qws : List (List Char))
    (s : Nat) (h : tokenSum lk lc ews qws = some s) :
    s = (qws.map (tokenScore lk lc ews)).sum := by
  induction qws generalizing s with
  | nil => simp [tokenSum] at h; simp [h]
  | cons qw rest ih =>
      by_cases h0 : tokenScore lk lc ews qw = Score.None
      · simp [tokenSum, h0] at h
      · simp only [tokenSum, if_neg h0] at h
        rw [Option.map_eq_some'] at h
        obtain ⟨s0, hs0, hadd⟩ := h
        subst hadd
        rw [ih s0 hs0]
        simp

theorem lexLt_irrefl : ∀ l : List Char, lexLt l l = false
  | [] => rfl
  | a :: as => by simp [lexLt, lexLt_irrefl as]

theorem lexLt_asymm : ∀ a b : List Char, lexLt a b = true → lexLt b a = false
  | [], [] => by simp [lexLt]
  | [], _ :: _ => by simp [lexLt]
  | _ :: _, [] => by simp [lexLt]
  | x :: xs, y :: ys => by
      simp only [lexLt]
      by_cases h1 : x.toNat < y.toNat
      · intro _
        simp [h1, Nat.lt_asymm h1]
      · by_cases h2 : y.toNat < x.toNat
        · simp [h1, h2]
        · simp only [h1, h2, if_false]
          exact lexLt_asymm xs ys

theorem lexLt_nil_right : ∀ a : List Char, lexLt a [] = false
  | [] => rfl
  | _ :: _ => rfl

theorem lexLt_trans : ∀ a b c : List Char,
    lexLt a b = true → lexLt b c = true → lexLt a c = true
  | _, [], _ => by simp [lexLt_nil_right]
  | _, _ :: _, [] => by simp [lexLt_nil_right]
  | [], _ :: _, _ :: _ => by simp [lexLt]
  | x :: xs, y :: ys, z :: zs => by
      intro hab hbc
      simp only [lexLt] at hab hbc ⊢
      by_cases h1 : x.toNat < y.toNat
      · by_cases h2 : y.toNat < z.toNat
        · simp [show x.toNat < z.toNat by omega]
        · by_cases h3 : z.toNat < y.toNat
          · simp [h2, h3] at hbc
          · simp [show x.toNat < z.toNat by omega]
      · by_cases h1' : y.toNat < x.toNat
        · simp [h1, h1'] at hab
        · simp only [if_neg h1, if_neg h1'] at hab
          by_cases h2 : y.toNat < z.toNat
          · simp [show x.toNat < z.toNat by omega]
          · by_cases h3 : z.toNat < y.toNat
            · simp [h2, h3] at hbc
            · simp only [if_neg h2, if_neg h3] at hbc
              have h4 : ¬ x.toNat < z.toNat := by omega
              have h5 : ¬ z.toNat < x.toNat := by omega
              simp only [if_neg h4, if_neg h5]
              exact lexLt_trans xs ys zs hab hbc

theorem lexLt_connex : ∀ a b : List Char,
    lexLt a b = false → lexLt b a = false → a = b
  | [], [] => by intro _ _; rfl
  | [], _ :: _ => by simp [lexLt]
  | _ :: _, [] => by simp [lexLt]
  | x :: xs, y :: ys => by
      intro hab hba
      simp only [lexLt] at hab hba
      by_cases h1 : x.toNat < y.toNat
      · simp [h1] at hab
      · by_cases h2 : y.toNat < x.toNat
        · simp [h1, h2] at hba
        · simp only [if_neg h1, if_neg h2] at hab hba
          have hx : x = y := Char.eq_of_val_eq (by
            have : x.toNat = y.toNat := by omega
            exact UInt32.toNat.inj this)
          rw [hx, lexLt_connex xs ys hab hba]

theorem cmpLt_asymm (entries : List Entry) (a b : SearchResult)
    (h : cmpLt entries a b = true) : cmpLt entries b a = false := by
  unfold cmpLt at h ⊢
  by_cases hs : a.score = b.score
  · rw [if_pos hs] at h
    rw [if_pos hs.symm]
    exact lexLt_asymm _ _ h
  · rw [if_neg hs] at h
    rw [if_neg (fun he => hs he.symm)]
    simp at h ⊢
    omega

instance sortRelTotal (entries : List Entry) :
    IsTotal SearchResult (sortRel entries) := by
  constructor
  intro a b
  by_cases h : cmpLt entries b a = true
  · right
    exact cmpLt_asymm entries b a h
  · left
    exact Bool.eq_false_iff.mpr (fun hh => h hh)

instance sortRelTrans (entries : List Entry) :
    IsTrans SearchResult (sortRel entries) := by
  constructor
  intro a b c hab hbc
  unfold sortRel cmpLt at hab hbc ⊢
  by_cases h1 : b.score = a.score
  · rw [if_pos h1] at hab
    by_cases h2 : c.score = b.score
    · rw [if_pos h2] at hbc
      rw [if_pos (h2.trans h1)]
      by_contra hca
      rw [Bool.not_eq_false] at hca
      by_cases hbcx : lexLt (contentAt entries b.index) (contentAt entries c.index) = true
      · exact absurd (lexLt_trans _ _ _ hbcx hca) (by rw [hab]; simp)
      · have hbceq := lexLt_connex _ _ hbc (Bool.eq_false_iff.mpr (fun hh => hbcx hh))
        rw [hbceq] at hca
        exact absurd hca (by simp [hab])
    · rw [if_neg h2] at hbc
      simp at hbc
      rw [if_neg (by omega : ¬ c.score = a.score)]
      simp
      omega
  · rw [if_neg h1] at hab
    simp at hab
    by_cases h2 : c.score = b.score
    · rw [if_neg (by omega : ¬ c.score = a.score)]
      simp
      omega
    · rw [if_neg h2] at hbc
      simp at hbc
      rw [if_neg (by omega : ¬ c.score = a.score)]
      simp
      omega

theorem mem_collectFrom (q : List Char) :
    ∀ (l : List Entry) (i j s : Nat),
      (⟨j, s⟩ : SearchResult) ∈ collectFrom i l q ↔
        ∃ k, ∃ hk : k < l.length, j = i + k ∧
          s = score (l.get ⟨k, hk⟩) q ∧ 0 < s := by
  intro l
  induction l with
  | nil => intro i j s; simp [collectFrom]
  | cons e rest ih =>
      intro i j s
      constructor
      · intro hmem
        by_cases h0 : 0 < score e q
        · rw [collectFrom, if_pos h0] at hmem
          rcases List.mem_cons.mp hmem with heq | hmem'
          · obtain ⟨hj, hs⟩ := SearchResult.mk.injEq .. ▸ heq
            exact ⟨0, by simp, by omega, by simp [hs], by rw [hs]; exact h0⟩
          · obtain ⟨k, hk, hj, hs, hpos⟩ := (ih (i + 1) j s).mp hmem'
            exact ⟨k + 1, by simpa using hk, by omega, by simpa using hs, hpos⟩
        · rw [collectFrom, if_neg h0] at hmem
          obtain ⟨k, hk, hj, hs, hpos⟩ := (ih (i + 1) j s).mp hmem
          exact ⟨k + 1, by simpa using hk, by omega, by simpa using hs, hpos⟩
      · rintro ⟨k, hk, hj, hs, hpos⟩
        cases k with
        | zero =>
            simp at hs
            have h0 : 0 < score e q := hs ▸ hpos
            rw [collectFrom, if_pos h0]
            exact List.mem_cons.mpr (Or.inl (by simp [hj, hs]))
        | succ k' =>
            have hmem' : (⟨j, s⟩ : SearchResult) ∈ collectFrom (i + 1) rest q := by
              refine (ih (i + 1) j s).mpr ⟨k', by simpa using hk, by omega, ?_, hpos⟩
              simpa using hs
            by_cases h0 : 0 < score e q
            · rw [collectFrom, if_pos h0]
              exact List.mem_cons.mpr (Or.inr hmem')
            · rw [collectFrom, if_neg h0]
              exact hmem'

theorem mem_collect_iff (entries : List Entry) (q : List Char) (j s : Nat) :
    (⟨j, s⟩ : SearchResult) ∈ collectFrom 0 entries q ↔
      ∃ hj : j < entries.length, s = score (entries.get ⟨j, hj⟩) q ∧ 0 < s := by
  rw [mem_collectFrom q entries 0 j s]
  constructor
  · rintro ⟨k, hk, hj, hs, hpos⟩
    subst hj
    simp only [Nat.zero_add]
    exact ⟨hk, hs, hpos⟩
  · rintro ⟨hj, hs, hpos⟩
    exact ⟨j, hj, (Nat.zero_add j).symm, hs, hpos⟩

theorem mem_computeResults_sound (entries : List Entry) (q : List Char)
    (r : SearchResult) (h : r ∈ computeResults entries q) :
    ∃ hj : r.index < entries.length,
      r.score = score (entries.get ⟨r.index, hj⟩) q ∧ 0 < r.score := by
  have h1 : r ∈ sortResults entries q := (List.take_sublist _ _).mem h
  have h2 : r ∈ collectFrom 0 entries q :=
    (List.Perm.mem_iff (List.perm_insertionSort _ _)).mp h1
  have h3 := (mem_collect_iff entries q r.index r.score).mp (by
    have : r = ⟨r.index, r.score⟩ := rfl
    rw [← this]; exact h2)
  exact h3

/-! ## Claim theorems -/

/-- C1: for every record and every query whose tokenization is non-empty,
`SearchEngine::score` equals the specified decomposition — the sequential
bonus (at most one of `SequentialKey`/`SequentialContent`, key first, only
with at least two tokens) plus the sum over tokens of the single highest
matching tier; and when some token matches no tier, the score is 0 and the
record appears nowhere in the published results. -/
theorem c1_score_decomposition (entries : List Entry) (q : List Char)
    (hq : tokenize q ≠ []) :
    (∀ e : Entry, score e q = specScore e q) ∧
    (∀ i (hi : i < entries.length),
      specScore (entries.get ⟨i, hi⟩) q = 0 →
      ∀ r ∈ computeResults entries q, r.index ≠ i) := by
  have hq0 : q ≠ [] := fun h => hq (by rw [h, tokenize_nil])
  have hmain : ∀ e : Entry, score e q = specScore e q := by
    intro e
    simp only [score, specScore, if_neg hq0, if_neg hq]
    cases htok : tokenSum (toLower e.key) (toLower e.content) e.words (tokenize q) with
    | none =>
        obtain ⟨qw, hmem, hz⟩ := (tokenSum_eq_none_iff _ _ _ _).mp htok
        rw [tokenScore_eq_tierMax] at hz
        have hany : (tokenize q).any
            (fun qw => tierMax (toLower e.key) (toLower e.content) e.words qw = 0) = true := by
          rw [List.any_eq_true]
          exact ⟨qw, hmem, by simpa using hz⟩
        rw [if_pos hany]
        rfl
    | some s =>
        have hnone : ¬ (tokenize q).any
            (fun qw => tierMax (toLower e.key) (toLower e.content) e.words qw = 0) = true := by
          intro hany
          obtain ⟨qw, hmem, hz⟩ := List.any_eq_true.mp hany
          have hz' : tokenScore (toLower e.key) (toLower e.content) e.words qw = 0 := by
            rw [tokenScore_eq_tierMax]; simpa using hz
          have : tokenSum (toLower e.key) (toLower e.content) e.words (tokenize q) = none :=
            (tokenSum_eq_none_iff _ _ _ _).mpr ⟨qw, hmem, hz'⟩
          rw [htok] at this
          cases this
        rw [if_neg hnone]
        have hsum := tokenSum_eq_some _ _ _ _ _ htok
        have hmap : (tokenize q).map (tokenScore (toLower e.key) (toLower e.content) e.words) =
            (tokenize q).map (tierMax (toLower e.key) (toLower e.content) e.words) :=
          List.map_congr_left (fun qw _ => tokenScore_eq_tierMax _ _ _ qw)
        rw [hsum, hmap]
  refine ⟨hmain, ?_⟩
  intro i hi hz r hr hidx
  obtain ⟨hj, hs, hpos⟩ := mem_computeResults_sound entries q r hr
  rw [hmain (entries.get ⟨r.index, hj⟩)] at hs
  have : specScore (entries.get ⟨r.index, hj⟩) q = 0 := by
    have hg : entries.get ⟨r.index, hj⟩ = entries.get ⟨i, hi⟩ := by
      congr 1
      exact Fin.ext hidx
    rw [hg, hz]
  rw [this] at hs
  omega

/-- Concrete instantiation of `c1_score_decomposition` at the scenario
corpus with query "doom": its hypothesis holds and its conclusion follows. -/
theorem c1_score_decomposition_witness :
    tokenize "doom".toList ≠ [] ∧
    ((∀ e : Entry, score e "doom".toList = specScore e "doom".toList) ∧
      (∀ i (hi : i < corpus2.length),
        specScore (corpus2.get ⟨i, hi⟩) "doom".toList = 0 →
        ∀ r ∈ computeResults corpus2 "doom".toList, r.index ≠ i)) :=
  ⟨by decide, c1_score_decomposition corpus2 "doom".toList (by decide)⟩

/-- C3: on the two-record DOOM corpus, query "doom" matches both records via
`KeyPrefix` and orders "DOOM" before "DOOM II" by the ascending-content tie
break, and query "1994 id" publishes exactly "DOOM II" (which earns the
`SequentialContent` bonus and not the key one), "DOOM" being excluded
because token "1994" matches no tier of it. -/
theorem c3_scenario :
    computeResults corpus2 "doom".toList =
      [⟨0, Score.KeyPrefix⟩, ⟨1, Score.KeyPrefix⟩] ∧
    ((corpus2.get ⟨0, by decide⟩).key |> toLower |> (tokenize "doom".toList)[0]!.isPrefixOf) = true ∧
    ((corpus2.get ⟨1, by decide⟩).key |> toLower |> (tokenize "doom".toList)[0]!.isPrefixOf) = true ∧
    lexLt (corpus2.get ⟨0, by decide⟩).content (corpus2.get ⟨1, by decide⟩).content = true ∧
    computeResults corpus2 "1994 id".toList = [⟨1, 3200⟩] ∧
    hasSequentialMatch (corpus2.get ⟨1, by decide⟩).content
      (tokenize "1994 id".toList) = true ∧
    hasSequentialMatch (corpus2.get ⟨1, by decide⟩).key
      (tokenize "1994 id".toList) = false ∧
    score (corpus2.get ⟨1, by decide⟩) "1994 id".toList =
      Score.SequentialContent + Score.WordPrefix + Score.WordPrefix ∧
    score (corpus2.get ⟨0, by decide⟩) "1994 id".toList = 0 ∧
    tierMax (toLower (corpus2.get ⟨0, by decide⟩).key)
      (toLower (corpus2.get ⟨0, by decide⟩).content)
      (corpus2.get ⟨0, by decide⟩).words "1994".toList = 0 := by
  decide

/-- C2: the published result list is the scored matches (exactly the records
with positive score, each with its score), sorted so that consecutive
entries descend by score with ties broken by ascending byte-wise comparison
of the records' content, truncated to at most `MaxResults` (10,000); and
recomputing the same query over the same corpus yields the identical list. -/
theorem c2_rank_published (entries : List Entry) (q : List Char) :
    computeResults entries q = (sortResults entries q).take Display.MaxResults ∧
    (sortResults entries q).Perm (collectFrom 0 entries q) ∧
    (∀ j s : Nat, (⟨j, s⟩ : SearchResult) ∈ collectFrom 0 entries q ↔
      ∃ hj : j < entries.length, s = score (entries.get ⟨j, hj⟩) q ∧ 0 < s) ∧
    List.Pairwise
      (fun a b => b.score ≤ a.score ∧
        (a.score = b.score →
          lexLt (contentAt entries b.index) (contentAt entries a.index) = false))
      (computeResults entries q) ∧
    (computeResults entries q).length ≤ Display.MaxResults ∧
    computeResults entries q = computeResults entries q := by
  refine ⟨rfl, List.perm_insertionSort _ _, mem_collect_iff entries q, ?_, ?_, rfl⟩
  · have hsorted : List.Pairwise (sortRel entries) (sortResults entries q) :=
      List.sorted_insertionSort (sortRel entries) (collectFrom 0 entries q)
    have htake : List.Pairwise (sortRel entries) (computeResults entries q) :=
      List.Pairwise.sublist (List.take_sublist _ _) hsorted
    refine htake.imp ?_
    intro a b hab
    unfold sortRel cmpLt at hab
    by_cases hs : b.score = a.score
    · rw [if_pos hs] at hab
      exact ⟨Nat.le_of_eq hs, fun _ => hab⟩
    · rw [if_neg hs] at hab
      simp at hab
      exact ⟨by omega, fun he => absurd he.symm hs⟩
  · exact List.length_take_le _ _

/-- C10: every result in a published snapshot has its corpus index strictly
below the corpus size, so `get_entry` on a published result never reads out
of bounds and the corpus-bounds branch of `select` is redundant for
published snapshots — `select` succeeds for exactly the in-range rows. -/
theorem c10_snapshot_indices_safe (entries : List Entry) (q : List Char) :
    (∀ r ∈ computeResults entries q, r.index < entries.length) ∧
    (∀ idx : Int,
      (select entries (computeResults entries q) idx).isSome ↔
        (0 ≤ idx ∧ idx.toNat < (computeResults entries q).length)) := by
  have hsound : ∀ r ∈ computeResults entries q, r.index < entries.length := by
    intro r hr
    obtain ⟨hj, _, _⟩ := mem_computeResults_sound entries q r hr
    exact hj
  refine ⟨hsound, ?_⟩
  intro idx
  unfold select
  constructor
  · intro hsome
    by_cases hc : 0 ≤ idx ∧ idx.toNat < (computeResults entries q).length ∧
        ((computeResults entries q).getD idx.toNat ⟨0, 0⟩).index < entries.length
    · exact ⟨hc.1, hc.2.1⟩
    · rw [if_neg hc] at hsome
      cases hsome
  · rintro ⟨h1, h2⟩
    have h3 : ((computeResults entries q).getD idx.toNat ⟨0, 0⟩).index <
        entries.length := by
      rw [List.getD_eq_getElem _ _ h2]
      exact hsound _ (List.getElem_mem h2)
    rw [if_pos ⟨h1, h2, h3⟩]
    rfl

/-- Concrete instantiation of `c10_snapshot_indices_safe`: on the scenario
corpus each published index is in bounds and selecting row 0 succeeds. -/
theorem c10_snapshot_indices_safe_witness :
    (⟨0, Score.KeyPrefix⟩ : SearchResult) ∈ computeResults corpus2 "doom".toList ∧
    (select corpus2 (computeResults corpus2 "doom".toList) 0).isSome := by
  refine ⟨by decide, ?_⟩
  exact ((c10_snapshot_indices_safe corpus2 "doom".toList).2 0).mpr
    ⟨by decide, by decide⟩

theorem collectFrom_length_le (q : List Char) :
    ∀ (l : List Entry) (i : Nat), (collectFrom i l q).length ≤ l.length := by
  intro l
  induction l with
  | nil => intro i; simp [collectFrom]
  | cons e rest ih =>
      intro i
      by_cases h0 : 0 < score e q
      · rw [collectFrom, if_pos h0]
        simpa using ih (i + 1)
      · rw [collectFrom, if_neg h0]
        exact le_trans (ih (i + 1)) (by simp)

theorem collectFrom_replicate_length :
    ∀ (n i : Nat),
      (collectFrom i (List.replicate n noEntry) []).length = n := by
  intro n
  induction n with
  | zero => intro i; simp [List.replicate, collectFrom]
  | succ n ih =>
      intro i
      rw [List.replicate_succ, collectFrom,
        if_pos (by decide : 0 < score noEntry [])]
      simp [ih (i + 1)]

/-- C8 (amended): for every query whose tokenization is empty, every record
scores exactly `Default` (1); when the corpus moreover has at most
`MaxResults` records, the published list contains every record (at score 1)
and is ordered by ascending content.  (Larger corpora are truncated to
10,000 rows — see the counterexample.) -/
theorem c8_empty_token_list (entries : List Entry) (q : List Char)
    (hq : tokenize q = []) (hlen : entries.length ≤ Display.MaxResults) :
    (∀ e ∈ entries, score e q = Score.Default) ∧
    (∀ i (hi : i < entries.length),
      (⟨i, Score.Default⟩ : SearchResult) ∈ computeResults entries q) ∧
    List.Pairwise
      (fun a b =>
        lexLt (contentAt entries b.index) (contentAt entries a.index) = false)
      (computeResults entries q) := by
  have hscore : ∀ e : Entry, score e q = Score.Default := by
    intro e
    by_cases hq0 : q = []
    · rw [score, if_pos hq0]
    · rw [score, if_neg hq0]
      simp only [hq]
      rfl
  have hfull : computeResults entries q = sortResults entries q := by
    apply List.take_of_length_le
    rw [sortResults, (List.perm_insertionSort _ _).length_eq]
    exact le_trans (collectFrom_length_le q entries 0) hlen
  refine ⟨fun e _ => hscore e, ?_, ?_⟩
  · intro i hi
    have hmem : (⟨i, Score.Default⟩ : SearchResult) ∈ collectFrom 0 entries q :=
      (mem_collect_iff entries q i Score.Default).mpr
        ⟨hi, (hscore _).symm, by norm_num [Score.Default]⟩
    rw [hfull]
    exact (List.Perm.mem_iff (List.perm_insertionSort _ _)).mpr hmem
  · have hsorted : List.Pairwise (sortRel entries) (computeResults entries q) :=
      List.Pairwise.sublist (List.take_sublist _ _)
        (List.sorted_insertionSort (sortRel entries) (collectFrom 0 entries q))
    have hsc : ∀ r ∈ computeResults entries q, r.score = Score.Default := by
      intro r hr
      obtain ⟨hj, hs, _⟩ := mem_computeResults_sound entries q r hr
      rw [hs, hscore]
    refine hsorted.imp_of_mem ?_
    intro a b ha hb hab
    unfold sortRel cmpLt at hab
    rw [if_pos ((hsc b hb).trans (hsc a ha).symm)] at hab
    exact hab

/-- Concrete instantiation of `c8_empty_token_list` at the scenario corpus
with the literal empty query. -/
theorem c8_empty_token_list_witness :
    tokenize ([] : List Char) = [] ∧ corpus2.length ≤ Display.MaxResults ∧
    ((∀ e ∈ corpus2, score e [] = Score.Default) ∧
      (∀ i (hi : i < corpus2.length),
        (⟨i, Score.Default⟩ : SearchResult) ∈ computeResults corpus2 []) ∧
      List.Pairwise
        (fun a b =>
          lexLt (contentAt corpus2 b.index) (contentAt corpus2 a.index) = false)
        (computeResults corpus2 [])) :=
  ⟨rfl, by decide, c8_empty_token_list corpus2 [] rfl (by decide)⟩

/-- C8 counterexample: with 10,001 records and the empty query the published
list is truncated to 10,000 rows, so it does not contain every record —
refuting the claim that an empty tokenization always publishes the whole
corpus. -/
theorem c8_counterexample :
    ¬ (∀ i, i < (List.replicate 10001 noEntry).length →
        ∃ s, (⟨i, s⟩ : SearchResult) ∈
          computeResults (List.replicate 10001 noEntry) []) := by
  intro h
  have hlen : (computeResults (List.replicate 10001 noEntry) []).length = 10000 := by
    rw [computeResults, List.length_take, sortResults,
      (List.perm_insertionSort _ _).length_eq,
      collectFrom_replicate_length 10001 0]
    rw [Display.MaxResults]
    omega
  have hsub : Finset.range 10001 ⊆
      ((computeResults (List.replicate 10001 noEntry) []).map
        (fun r => r.index)).toFinset := by
    intro i hi
    obtain ⟨s, hs⟩ := h i
      (by rw [List.length_replicate]; exact Finset.mem_range.mp hi)
    exact List.mem_toFinset.mpr (List.mem_map.mpr ⟨⟨i, s⟩, hs, rfl⟩)
  have h1 := Finset.card_le_card hsub
  rw [Finset.card_range] at h1
  have h2 := List.toFinset_card_le
    ((computeResults (List.replicate 10001 noEntry) []).map (fun r => r.index))
  rw [List.length_map, hlen] at h2
  omega

/-- C9: a fresh measurement always yields `max_visible_results ≥ 2`:
above the header(3)+footer(3)+minimum-space threshold it is `(h − 6) / 3`
clamped below at 2, at or below the threshold the fallback yields exactly 2;
`measure_display` either reuses the cached metrics unchanged or returns a
fresh measurement, so it never drops an established floor to 0. -/
theorem c9_min_visible_floor (h : Nat) (m : DMetrics) :
    2 ≤ (freshMetrics h).max_visible_results ∧
    (12 < h → (freshMetrics h).max_visible_results = max ((h - 6) / 3) 2) ∧
    (h ≤ 12 → (freshMetrics h).max_visible_results = 2) ∧
    (measureDisplay h m = m ∨ measureDisplay h m = freshMetrics h) ∧
    (2 ≤ m.max_visible_results → 2 ≤ (measureDisplay h m).max_visible_results) := by
  have hfresh : 2 ≤ (freshMetrics h).max_visible_results ∧
      (12 < h → (freshMetrics h).max_visible_results = max ((h - 6) / 3) 2) ∧
      (h ≤ 12 → (freshMetrics h).max_visible_results = 2) := by
    unfold freshMetrics
    simp only [Display.MinVisibleResults, Display.MinLinesPerResult]
    by_cases hc : 3 + 3 + 2 * 3 < h
    · rw [if_pos hc]
      rw [if_pos (by omega : 3 + 3 < h)]
      simp only
      by_cases hm : (h - (3 + 3)) / 3 < 2
      · rw [if_pos hm]
        refine ⟨by omega, fun _ => ?_, fun hle => by omega⟩
        omega
      · rw [if_neg hm]
        refine ⟨by omega, fun _ => ?_, fun hle => by omega⟩
        omega
    · rw [if_neg hc]
      dsimp only
      exact ⟨by omega, fun hlt => by omega, fun _ => rfl⟩
  refine ⟨hfresh.1, hfresh.2.1, hfresh.2.2, ?_, ?_⟩
  · unfold measureDisplay
    by_cases hc : m.dirty = false ∧ m.terminal_height = h ∧ 0 < h
    · rw [if_pos hc]; exact Or.inl rfl
    · rw [if_neg hc]; exact Or.inr rfl
  · intro hm
    unfold measureDisplay
    by_cases hc : m.dirty = false ∧ m.terminal_height = h ∧ 0 < h
    · rw [if_pos hc]; exact hm
    · rw [if_neg hc]; exact hfresh.1

/-- Concrete instantiation of `c9_min_visible_floor`: a 20-line terminal
shows `(20-6)/3 = 4` rows and a 5-line terminal is clamped to the floor 2. -/
theorem c9_min_visible_floor_witness :
    2 ≤ (freshMetrics 20).max_visible_results ∧
    (freshMetrics 20).max_visible_results = max ((20 - 6) / 3) 2 ∧
    (freshMetrics 5).max_visible_results = 2 :=
  ⟨(c9_min_visible_floor 20 {}).1,
    (c9_min_visible_floor 20 {}).2.1 (by omega),
    (c9_min_visible_floor 5 {}).2.2.1 (by omega)⟩

theorem containsSub_of_infix (t s : List Char) (h : t <:+: s) :
    containsSub s t = true := by
  obtain ⟨l, r, hs⟩ := h
  subst hs
  induction l with
  | nil =>
      exact prefix_contains _ _
        (List.isPrefixOf_iff_prefix.mpr (by simpa using List.prefix_append t r))
  | cons c l' ih =>
      show containsSub (c :: (l' ++ t ++ r)) t = true
      rw [containsSub,
        show findSub (c :: (l' ++ t ++ r)) t =
          (if t.isPrefixOf (c :: (l' ++ t ++ r)) then some 0
           else (findSub (l' ++ t ++ r) t).map (· + 1)) from rfl]
      by_cases hp : t.isPrefixOf (c :: (l' ++ t ++ r)) = true
      · rw [if_pos hp]
        rfl
      · rw [if_neg hp]
        rw [containsSub] at ih
        cases hfs : findSub (l' ++ t ++ r) t with
        | none => rw [hfs] at ih; cases ih
        | some k => rfl

theorem wsSplit_spec : ∀ l : List Char,
    ∃ w0 ws, wsSplit l = w0 :: ws ∧ w0 <+: l ∧
      ∀ w ∈ wsSplit l, w <:+: l ∧ ∀ c ∈ w, isWS c = false := by
  intro l
  induction l with
  | nil =>
      refine ⟨[], [], rfl, List.nil_prefix, ?_⟩
      intro w hw
      have : w = [] := by simpa [wsSplit] using hw
      subst this
      exact ⟨List.nil_infix, by simp⟩
  | cons c rest ih =>
      obtain ⟨w0, ws, heq, hpre, hall⟩ := ih
      have hcons : wsSplit (c :: rest) =
          if isWS c then [] :: wsSplit rest
          else
            match wsSplit rest with
            | [] => [[c]]
            | w :: ws => (c :: w) :: ws := rfl
      by_cases hc : isWS c = true
      · refine ⟨[], wsSplit rest, by rw [hcons, if_pos hc], List.nil_prefix, ?_⟩
        intro w hw
        rw [hcons, if_pos hc] at hw
        rcases List.mem_cons.mp hw with rfl | hw'
        · exact ⟨List.nil_infix, by simp⟩
        · exact ⟨List.infix_cons (hall w hw').1, (hall w hw').2⟩
      · have hc' : isWS c = false := Bool.eq_false_iff.mpr hc
        have heq' : wsSplit (c :: rest) = (c :: w0) :: ws := by
          rw [hcons, if_neg (by simp [hc']), heq]
        refine ⟨c :: w0, ws, heq', ?_, ?_⟩
        · exact List.cons_prefix_cons.mpr ⟨rfl, hpre⟩
        · intro w hw
          rw [heq'] at hw
          rcases List.mem_cons.mp hw with rfl | hw'
          · refine ⟨(List.cons_prefix_cons.mpr ⟨rfl, hpre⟩).isInfix, ?_⟩
            intro d hd
            rcases List.mem_cons.mp hd with rfl | hd'
            · exact hc'
            · exact (hall w0 (heq ▸ List.mem_cons_self w0 ws)).2 d hd'
          · have hmem : w ∈ wsSplit rest := heq ▸ List.mem_cons_of_mem w0 hw'
            exact ⟨List.infix_cons (hall w hmem).1, (hall w hmem).2⟩

theorem mem_tokenize (q t : List Char) (h : t ∈ tokenize q) :
    ∃ w ∈ wsSplit q, toLower (w.filter isAlnumChar) = t ∧ t ≠ [] := by
  unfold tokenize at h
  rw [List.mem_filterMap] at h
  obtain ⟨w, hw, hf⟩ := h
  by_cases hz : toLower (w.filter isAlnumChar) = []
  · rw [if_pos hz] at hf
    cases hf
  · rw [if_neg hz] at hf
    obtain rfl := Option.some.inj hf
    exact ⟨w, hw, rfl, hz⟩

/-- C7 (amended): for every record `R` and query `Q` that is a prefix of
`R.key`, consists only of whitespace and alphanumeric characters, and has a
non-empty tokenization, the score is positive — the record is never
excluded.  (Queries with other characters inside a word can tokenize to a
string that no longer occurs in the key — see the counterexample.) -/
theorem c7_key_prefix_scores (e : Entry) (q : List Char)
    (hpre : q.isPrefixOf e.key = true)
    (hchars : ∀ c ∈ q, isWS c = true ∨ isAlnumChar c = true)
    (hq : tokenize q ≠ []) :
    0 < score e q := by
  have hq0 : q ≠ [] := fun h => hq (by rw [h, tokenize_nil])
  obtain ⟨_, _, _, _, hall⟩ := wsSplit_spec q
  have hkey : ∀ t ∈ tokenize q, containsSub (toLower e.key) t = true := by
    intro t ht
    obtain ⟨w, hw, hlow, hne⟩ := mem_tokenize q t ht
    have hinf : w <:+: q := (hall w hw).1
    have hnos : ∀ c ∈ w, isWS c = false := (hall w hw).2
    have halnum : ∀ c ∈ w, isAlnumChar c = true := by
      intro c hcw
      rcases hchars c (hinf.sublist.subset hcw) with hws | ha
      · rw [hnos c hcw] at hws
        cases hws
      · exact ha
    have hfilter : w.filter isAlnumChar = w := List.filter_eq_self.mpr halnum
    rw [hfilter] at hlow
    subst hlow
    have h1 : toLower w <:+: toLower q := hinf.map lowerChar
    have h2 : toLower q <+: toLower e.key :=
      (List.isPrefixOf_iff_prefix.mp hpre).map lowerChar
    exact containsSub_of_infix _ _ (h1.trans h2.isInfix)
  have hpos : ∀ t ∈ tokenize q,
      0 < tokenScore (toLower e.key) (toLower e.content) e.words t := by
    intro t ht
    rw [tokenScore_eq_tierMax]
    have hc := hkey t ht
    calc 0 < Score.KeyContains := by norm_num [Score.KeyContains]
      _ = (if containsSub (toLower e.key) t then Score.KeyContains else 0) :=
          (if_pos hc).symm
      _ ≤ tierMax (toLower e.key) (toLower e.content) e.words t := by
          unfold tierMax
          exact le_trans (le_max_left _ _) (le_max_right _ _)
  cases htok : tokenSum (toLower e.key) (toLower e.content) e.words (tokenize q) with
  | none =>
      obtain ⟨t, ht, hz⟩ := (tokenSum_eq_none_iff _ _ _ _).mp htok
      have := hpos t ht
      omega
  | some s =>
      have hscore : score e q =
          (if 1 < (tokenize q).length then
            (if hasSequentialMatch e.key (tokenize q) then Score.SequentialKey
             else if hasSequentialMatch e.content (tokenize q) then
               Score.SequentialContent
             else 0)
          else 0) + s := by
        rw [score, if_neg hq0]
        simp only [if_neg hq, htok]
      rw [hscore]
      obtain ⟨t0, rest, hcons⟩ := List.exists_cons_of_ne_nil hq
      have hsum := tokenSum_eq_some _ _ _ _ _ htok
      rw [hcons] at hsum
      simp only [List.map_cons, List.sum_cons] at hsum
      have h0 := hpos t0 (hcons ▸ List.mem_cons_self t0 rest)
      omega

/-- Concrete instantiation of `c7_key_prefix_scores` on the scenario corpus
with query "DOO", a clean prefix of the key "DOOM". -/
theorem c7_key_prefix_scores_witness :
    ("DOO".toList).isPrefixOf (corpus2.get ⟨0, by decide⟩).key = true ∧
    (∀ c ∈ "DOO".toList, isWS c = true ∨ isAlnumChar c = true) ∧
    tokenize "DOO".toList ≠ [] ∧
    0 < score (corpus2.get ⟨0, by decide⟩) "DOO".toList :=
  ⟨by decide, by decide, by decide,
    c7_key_prefix_scores (corpus2.get ⟨0, by decide⟩) "DOO".toList
      (by decide) (by decide) (by decide)⟩

/-- C7 counterexample: the query "a-b" is a tokenizable prefix of the key
"a-b" (its tokenization is the non-empty `["ab"]`), yet the record scores 0
because stripping the hyphen yields a token that occurs nowhere. -/
theorem c7_counterexample :
    ("a-b".toList).isPrefixOf (Entry.mk "a-b".toList [] []).key = true ∧
    tokenize "a-b".toList ≠ [] ∧
    score (Entry.mk "a-b".toList [] []) "a-b".toList = 0 := by
  decide

theorem isPrefixOf_trans (a b c : List Char) (h1 : a.isPrefixOf b = true)
    (h2 : b.isPrefixOf c = true) : a.isPrefixOf c = true :=
  List.isPrefixOf_iff_prefix.mpr
    ((List.isPrefixOf_iff_prefix.mp h1).trans (List.isPrefixOf_iff_prefix.mp h2))

theorem mem_setInsert (x : List Char) :
    ∀ (l : List (List Char)) (z : List Char),
      z ∈ setInsert x l ↔ z = x ∨ z ∈ l := by
  intro l
  induction l with
  | nil => intro z; simp [setInsert]
  | cons y ys ih =>
      intro z
      by_cases h1 : lexLt x y = true
      · rw [setInsert, if_pos h1]
        simp
      · by_cases h2 : lexLt y x = true
        · rw [setInsert, if_neg h1, if_pos h2]
          rw [List.mem_cons, ih z, List.mem_cons]
          tauto
        · rw [setInsert, if_neg h1, if_neg h2]
          have hxy : x = y := lexLt_connex x y
            (Bool.eq_false_iff.mpr h1) (Bool.eq_false_iff.mpr h2)
          subst hxy
          rw [List.mem_cons]
          tauto

theorem mem_foldl_setInsert (p : List Char → Bool) :
    ∀ (cands acc : List (List Char)) (x : List Char),
      x ∈ cands.foldl (fun acc c => if p c then setInsert c acc else acc) acc ↔
        (x ∈ acc ∨ (x ∈ cands ∧ p x = true)) := by
  intro cands
  induction cands with
  | nil => intro acc x; simp
  | cons c cs ih =>
      intro acc x
      rw [List.foldl_cons, ih]
      by_cases hp : p c = true
      · rw [if_pos hp, mem_setInsert]
        constructor
        · rintro ((rfl | hacc) | ⟨hcs, hpx⟩)
          · exact Or.inr ⟨by simp, hp⟩
          · exact Or.inl hacc
          · exact Or.inr ⟨List.mem_cons_of_mem c hcs, hpx⟩
        · rintro (hacc | ⟨hmem, hpx⟩)
          · exact Or.inl (Or.inr hacc)
          · rcases List.mem_cons.mp hmem with rfl | hcs
            · exact Or.inl (Or.inl rfl)
            · exact Or.inr ⟨hcs, hpx⟩
      · rw [if_neg hp]
        constructor
        · rintro (hacc | ⟨hcs, hpx⟩)
          · exact Or.inl hacc
          · exact Or.inr ⟨List.mem_cons_of_mem c hcs, hpx⟩
        · rintro (hacc | ⟨hmem, hpx⟩)
          · exact Or.inl hacc
          · rcases List.mem_cons.mp hmem with rfl | hcs
            · exact absurd hpx hp
            · exact Or.inr ⟨hcs, hpx⟩

theorem mem_findCompletions (entries : List Entry) (q x : List Char) :
    x ∈ findCompletions entries q ↔
      (q ≠ [] ∧ entries ≠ [] ∧ wordPart q ≠ [] ∧ x ∈ allCands entries ∧
        x ≠ [] ∧ (toLower (wordPart q)).isPrefixOf (toLower x) = true ∧
        (wordPart q).length < x.length) := by
  unfold findCompletions
  by_cases hq : q = []
  · simp [hq]
  · by_cases he : entries = []
    · simp [hq, he]
    · rw [if_neg (by simp [hq, he])]
      by_cases hw : wordPart q = []
      · simp [hw]
      · rw [if_neg hw]
        rw [mem_foldl_setInsert
          (fun c => c ≠ [] && (toLower (wordPart q)).isPrefixOf (toLower c) &&
            (wordPart q).length < c.length) (allCands entries) [] x]
        simp only [List.not_mem_nil, false_or, Bool.and_eq_true,
          decide_eq_true_eq]
        constructor
        · rintro ⟨hcand, ⟨hne, hpfx⟩, hlen⟩
          exact ⟨hq, he, hw, hcand, hne, hpfx, hlen⟩
        · rintro ⟨_, _, _, hcand, hne, hpfx, hlen⟩
          exact ⟨hcand, ⟨hne, hpfx⟩, hlen⟩

theorem getCompletionWith_singleton (q w c : List Char)
    (h : getCompletionWith q [w] = some c) :
    c = headPart q ++ w ∧ wordPart q ≠ [] ∧ w ≠ [] ∧
      (toLower (wordPart q)).isPrefixOf (toLower w) = true ∧
      (wordPart q).length < w.length := by
  rw [show getCompletionWith q [w] =
      (if q = [] then none
       else if wordPart q = [] then none
       else if w = [] then none
       else
         if w ≠ [] && (toLower (wordPart q)).isPrefixOf (toLower w) &&
             (wordPart q).length < w.length then
           some (headPart q ++ w)
         else none) from by rw [getCompletionWith]; simp only [List.foldl_nil]] at h
  by_cases hq : q = []
  · rw [if_pos hq] at h
    cases h
  · rw [if_neg hq] at h
    by_cases hw : wordPart q = []
    · rw [if_pos hw] at h
      cases h
    · rw [if_neg hw] at h
      by_cases hwe : w = []
      · rw [if_pos hwe] at h
        cases h
      · rw [if_neg hwe] at h
        by_cases hcond : (w ≠ [] && (toLower (wordPart q)).isPrefixOf (toLower w) &&
            (wordPart q).length < w.length) = true
        · rw [if_pos hcond] at h
          have hceq : c = headPart q ++ w := (Option.some.inj h).symm
          simp only [Bool.and_eq_true, decide_eq_true_eq] at hcond
          exact ⟨hceq, hw, hwe, hcond.1.2, hcond.2⟩
        · rw [if_neg hcond] at h
          cases h

/-- C6: if `get_completion()` returns a completion `c` whose completed last
word is the exact unique completion candidate for the previous query `q`,
then after `update_query(c)`, once the recompute for `c` has been
published, `get_completion()` returns nothing — no candidate is strictly
longer than the now-complete last word. -/
theorem c6_unique_completion_stable (entries : List Entry) (q w c : List Char)
    (hu : findCompletions entries q = [w])
    (hc : engineCompletion entries q = some c)
    (hw : wordPart c = w) :
    engineCompletion entries c = none := by
  have hq0 : q ≠ [] := by
    intro h
    rw [h] at hu
    simp [findCompletions] at hu
  have hent : entries ≠ [] := by
    intro h
    rw [h] at hu
    simp [findCompletions] at hu
  rw [engineCompletion, hu] at hc
  obtain ⟨hceq, hwq, hwne, hpfx, hlen⟩ := getCompletionWith_singleton q w c hc
  have hnew : findCompletions entries c = [] := by
    rw [List.eq_nil_iff_forall_not_mem]
    intro x hx
    rw [mem_findCompletions] at hx
    obtain ⟨_, _, _, hcand, hxne, hxpfx, hxlen⟩ := hx
    rw [hw] at hxpfx hxlen
    have hxq : x ∈ findCompletions entries q := by
      rw [mem_findCompletions]
      exact ⟨hq0, hent, hwq, hcand, hxne,
        isPrefixOf_trans _ _ _ hpfx hxpfx, by omega⟩
    rw [hu] at hxq
    have hxw : x = w := by simpa using hxq
    subst hxw
    omega
  rw [engineCompletion, hnew]
  rfl

/-- Concrete instantiation of `c6_unique_completion_stable`: on a one-record
corpus with key "ABC", query "a" has the unique candidate "ABC"; completing
to "ABC" and recomputing yields no further completion. -/
theorem c6_unique_completion_stable_witness :
    findCompletions [⟨"ABC".toList, [], []⟩] ['a'] = ["ABC".toList] ∧
    engineCompletion [⟨"ABC".toList, [], []⟩] ['a'] = some "ABC".toList ∧
    wordPart "ABC".toList = "ABC".toList ∧
    engineCompletion [⟨"ABC".toList, [], []⟩] "ABC".toList = none :=
  ⟨by decide, by decide, by decide,
    c6_unique_completion_stable [⟨"ABC".toList, [], []⟩] ['a']
      "ABC".toList "ABC".toList (by decide) (by decide) (by decide)⟩

theorem freshMetrics_dirty (h : Nat) : (freshMetrics h).dirty = false := by
  unfold freshMetrics
  dsimp only
  split <;> rfl

theorem freshMetrics_height (h : Nat) :
    (freshMetrics h).terminal_height = h := by
  unfold freshMetrics
  dsimp only
  split <;> rfl

theorem freshMetrics_floor (h : Nat) :
    2 ≤ (freshMetrics h).max_visible_results := by
  unfold freshMetrics
  simp only [Display.MinVisibleResults, Display.MinLinesPerResult]
  split
  · try dsimp only
    split <;> try split <;> omega
  · try dsimp only
    omega

theorem measure_of_fresh (h : Nat) (hh : 0 < h) :
    measureDisplay h (freshMetrics h) = freshMetrics h := by
  unfold measureDisplay
  rw [if_pos ⟨freshMetrics_dirty h, freshMetrics_height h, hh⟩]

theorem measure_of_dirty (h : Nat) (m : DMetrics) (hd : m.dirty = true) :
    measureDisplay h m = freshMetrics h := by
  unfold measureDisplay
  rw [if_neg]
  rintro ⟨h1, -, -⟩
  rw [hd] at h1
  cases h1

theorem renderUpd_stable (h : Nat) (hh : 0 < h) (st : DState)
    (h1 : st.last_terminal_height = h) (h2 : st.metrics = freshMetrics h) :
    renderUpd h st = st := by
  unfold renderUpd
  rw [if_pos h1, h2, measure_of_fresh h hh, ← h2]

theorem renderUpd_dirty (h : Nat) (st : DState) (hd : st.metrics.dirty = true) :
    renderUpd h st =
      { st with metrics := freshMetrics h, last_terminal_height := h } := by
  unfold renderUpd
  by_cases hlt : st.last_terminal_height = h
  · rw [if_pos hlt, measure_of_dirty h st.metrics hd]
    cases st
    simp_all
  · rw [if_neg hlt, measure_of_dirty h _ (by rfl)]

theorem scroll_adjust_window (scroll mv selN : Nat) (hmv : 0 < mv) :
    (if selN < scroll then selN
     else if scroll + mv ≤ selN then selN - mv + 1
     else scroll) ≤ selN ∧
    selN < (if selN < scroll then selN
     else if scroll + mv ≤ selN then selN - mv + 1
     else scroll) + mv := by
  by_cases h1 : selN < scroll
  · simp only [if_pos h1]
    omega
  · by_cases h2 : scroll + mv ≤ selN
    · simp only [if_neg h1, if_pos h2]
      omega
    · simp only [if_neg h1, if_neg h2]
      omega

/-- C4 (amended): `select(index)` succeeds exactly when `0 ≤ index <
result_count` and the selected result's corpus index is within corpus
bounds; on success the stored exit status equals the corpus index clamped
to 255 (so it lies in 0..255, and in 2..255 exactly when the corpus index
is at least 2 — corpus indices 0 and 1 collide with the reserved cancel and
error codes); on failure `select` returns nothing and the session
continues unchanged. -/
theorem c4_select_exit_status (entries : List Entry)
    (results : List SearchResult) (idx : Int) :
    ((select entries results idx).isSome ↔
      (0 ≤ idx ∧ idx.toNat < results.length ∧
        (results.getD idx.toNat ⟨0, 0⟩).index < entries.length)) ∧
    (∀ code, select entries results idx = some code →
      code = min (results.getD idx.toNat ⟨0, 0⟩).index MaxExitCode ∧
      code ≤ MaxExitCode ∧
      (2 ≤ (results.getD idx.toNat ⟨0, 0⟩).index → 2 ≤ code)) ∧
    (∀ h s, 0 ≤ idx → select entries results idx = none →
      ioStep entries h results s (Command.SelectResult idx) = s) ∧
    (∀ h s code, 0 ≤ idx → select entries results idx = some code →
      ioStep entries h results s (Command.SelectResult idx) =
        { s with exit_code := Int.ofNat code, running := false }) ∧
    ExitSuccess = 0 ∧ ExitError = 1 := by
  have hnotneg : ∀ idx0 : Int, 0 ≤ idx0 → ∀ (h : Nat) (s : AppState),
      ioStep entries h results s (Command.SelectResult idx0) =
        match select entries results idx0 with
        | some code => { s with exit_code := Int.ofNat code, running := false }
        | none => s := by
    intro idx0 hge h s
    show handleSelect entries results idx0 h s = _
    rw [handleSelect, if_neg (by rintro ⟨hneg, -, -⟩; omega)]
    rw [if_neg (by omega : ¬ idx0 < 0)]
  refine ⟨?_, ?_, ?_, ?_, rfl, rfl⟩
  · unfold select
    constructor
    · intro hsome
      by_cases hc : 0 ≤ idx ∧ idx.toNat < results.length ∧
          (results.getD idx.toNat ⟨0, 0⟩).index < entries.length
      · exact hc
      · rw [if_neg hc] at hsome
        cases hsome
    · intro hc
      rw [if_pos hc]
      rfl
  · intro code hcode
    unfold select at hcode
    by_cases hc : 0 ≤ idx ∧ idx.toNat < results.length ∧
        (results.getD idx.toNat ⟨0, 0⟩).index < entries.length
    · rw [if_pos hc] at hcode
      have := Option.some.inj hcode
      subst this
      refine ⟨rfl, ?_, ?_⟩
      · exact min_le_right _ _
      · intro h2
        rw [MaxExitCode]
        omega
    · rw [if_neg hc] at hcode
      cases hcode
  · intro h s hge hnone
    rw [hnotneg idx hge h s, hnone]
  · intro h s code hge hsome
    rw [hnotneg idx hge h s, hsome]

/-- C4 counterexample: selecting the first result for query "doom" on the
scenario corpus succeeds with exit status 0 (the corpus index), which does
not lie in the claimed range 2..255. -/
theorem c4_counterexample :
    select corpus2 (computeResults corpus2 "doom".toList) 0 = some 0 ∧
    ¬ (2 ≤ (0 : Nat)) := by
  decide

/-- Concrete instantiation of `c4_select_exit_status`: a successful and a
failing selection on the scenario corpus. -/
theorem c4_select_exit_status_witness :
    (select corpus2 (computeResults corpus2 "doom".toList) 1).isSome ∧
    (ioStep corpus2 20 (computeResults corpus2 "doom".toList) {}
      (Command.SelectResult 5) = {}) :=
  ⟨((c4_select_exit_status corpus2 (computeResults corpus2 "doom".toList) 1).1).mpr
      ⟨by decide, by decide, by decide⟩,
    (c4_select_exit_status corpus2 (computeResults corpus2 "doom".toList) 5).2.2.1
      20 {} (by omega) (by decide)⟩

theorem renderUpd_stable_mk (h : Nat) (hh : 0 < h) (scr : Nat) (sel : Int)
    (m : DMetrics) (l : Nat) (h1 : l = h) (h2 : m = freshMetrics h) :
    renderUpd h (DState.mk scr sel m l) = DState.mk scr sel m l :=
  renderUpd_stable h hh _ h1 h2

theorem renderUpd_dirty_mk (h : Nat) (scr : Nat) (sel : Int) (m : DMetrics)
    (l : Nat) (hd : m.dirty = true) :
    renderUpd h (DState.mk scr sel m l) =
      DState.mk scr sel (freshMetrics h) h :=
  renderUpd_dirty h (DState.mk scr sel m l) hd

theorem DispatchInv_mk (h : Nat) (results : List SearchResult) (s : AppState)
    (scr : Nat) (sel : Int) (m : DMetrics) (l : Nat)
    (h1 : sel = -1 ∨ (0 ≤ sel ∧ sel < (results.length : Int)))
    (h2 : 0 ≤ sel → 0 < m.max_visible_results →
      scr ≤ sel.toNat ∧ sel.toNat < scr + m.max_visible_results)
    (h3 : sel = -1 → scr = 0)
    (h4 : (m = freshMetrics h ∧ l = h) ∨
      (m = {} ∧ scr = 0 ∧ sel = -1)) :
    DispatchInv h results { s with state := DState.mk scr sel m l } :=
  ⟨h1, h2, h3, h4⟩

/-- C5 (amended): absent a resize during the command — the terminal height
equals the one the cached metrics were measured at, expressed by the
metrics fixed-point hypothesis in `DispatchInv` — the dispatcher preserves
the display invariants: processing any command from a state satisfying the
(strengthened, inductive) dispatcher invariant yields a state that again
satisfies it — in particular `selected_index ∈ [0, result_count) ∪ {−1}`
and, whenever a selection is set and the viewport is non-degenerate,
`scroll_offset ≤ selected_index < scroll_offset + max_visible`.
`RefreshDisplay` commands are restricted to the `{0, −1}` payload the
search worker actually enqueues.  The unamended claim is false across a
resize — see the counterexample. -/
theorem c5_dispatcher_invariants (entries : List Entry) (h : Nat)
    (results : List SearchResult) (cmd : Command) (s : AppState)
    (hh : 0 < h)
    (hinv : DispatchInv h results s)
    (hrefresh : ∀ st, cmd = Command.RefreshDisplay st →
      st.scroll_offset = 0 ∧ st.selected_index = -1) :
    DispatchInv h results (ioStep entries h results s cmd) ∧
    SelInv results (ioStep entries h results s cmd) ∧
    WinInv (ioStep entries h results s cmd) := by
  suffices hmain : DispatchInv h results (ioStep entries h results s cmd) by
    exact ⟨hmain, hmain.1, hmain.2.1⟩
  obtain ⟨hsel, hwin, hsc0, hmet⟩ := hinv
  have hsellow : -1 ≤ s.state.selected_index := by
    rcases hsel with h1 | ⟨h1, -⟩ <;> omega
  have hselhigh : s.state.selected_index < (results.length : Int) ∨
      s.state.selected_index = -1 := by
    rcases hsel with h1 | ⟨-, h1⟩
    · exact Or.inr h1
    · exact Or.inl h1
  cases cmd with
  | Exit code => exact ⟨hsel, hwin, hsc0, hmet⟩
  | UpdateQuery qn => exact ⟨hsel, hwin, hsc0, hmet⟩
  | RefreshDisplay st =>
      obtain ⟨hst0, hstm1⟩ := hrefresh st rfl
      show DispatchInv h results
        { s with state := renderUpd h (DState.mk st.scroll_offset
            st.selected_index
            { s.state.metrics with dirty := true }
            s.state.last_terminal_height) }
      rw [renderUpd_dirty_mk h _ _ _ _ rfl]
      refine DispatchInv_mk h results s _ _ _ _ (Or.inl hstm1) ?_
        (fun _ => hst0) (Or.inl ⟨rfl, rfl⟩)
      intro hge _
      rw [hstm1] at hge
      omega
  | MoveSelection d =>
      show DispatchInv h results (handleMove h results d s)
      by_cases hres : results = []
      · rw [handleMove, if_pos hres]
        exact ⟨hsel, hwin, hsc0, hmet⟩
      · have hcnt : 0 < results.length := List.length_pos.mpr hres
        rw [handleMove, if_neg hres]
        dsimp only
        rcases hmet with ⟨hm1, hm2⟩ | ⟨hm1, hm2, hm3⟩
        · have hmv : 0 < s.state.metrics.max_visible_results := by
            rw [hm1]
            have := freshMetrics_floor h
            omega
          rw [if_pos hmv]
          rw [renderUpd_stable_mk h hh _ _ _ _ hm2 hm1]
          refine DispatchInv_mk h results s _ _ _ _ ?_ ?_ ?_
            (Or.inl ⟨hm1, hm2⟩)
          · right
            constructor <;> split <;> omega
          · intro _ hmv'
            exact scroll_adjust_window s.state.scroll_offset
              s.state.metrics.max_visible_results _ hmv
          · intro habs
            split at habs <;> omega
        · have hmv0 : ¬ 0 < s.state.metrics.max_visible_results := by
            rw [hm1]
            decide
          rw [if_neg hmv0]
          rw [if_pos (show s.state.selected_index < 0 by omega)]
          rw [renderUpd_dirty_mk h _ _ _ _ (by rw [hm1])]
          refine DispatchInv_mk h results s _ _ _ _ ?_ ?_ ?_
            (Or.inl ⟨rfl, rfl⟩)
          · right
            constructor <;> omega
          · intro _ hmv'
            rw [hm2]
            omega
          · intro habs
            omega
  | PageScroll up =>
      show DispatchInv h results (handlePageScroll h results up s)
      by_cases hres : results = []
      · rw [handlePageScroll, if_pos hres]
        exact ⟨hsel, hwin, hsc0, hmet⟩
      · have hcnt : 0 < results.length := List.length_pos.mpr hres
        rw [handlePageScroll, if_neg hres]
        dsimp only
        rcases hmet with ⟨hm1, hm2⟩ | ⟨hm1, hm2, hm3⟩
        · have hmv : 0 < s.state.metrics.max_visible_results := by
            rw [hm1]
            have := freshMetrics_floor h
            omega
          rw [if_neg (by omega : ¬ s.state.metrics.max_visible_results = 0)]
          rw [renderUpd_stable_mk h hh _ _ _ _ hm2 hm1]
          refine DispatchInv_mk h results s _ _ _ _ ?_ ?_ ?_
            (Or.inl ⟨hm1, hm2⟩)
          · right
            constructor <;> (repeat' split) <;> omega
          · intro _ hmv'
            exact scroll_adjust_window s.state.scroll_offset
              s.state.metrics.max_visible_results _ hmv
          · intro habs
            repeat' split at habs
            all_goals omega
        · have hmv0 : s.state.metrics.max_visible_results = 0 := by
            rw [hm1]
          rw [if_pos hmv0]
          exact ⟨hsel, hwin, hsc0, Or.inr ⟨hm1, hm2, hm3⟩⟩
  | SelectResult idx =>
      show DispatchInv h results (handleSelect entries results idx h s)
      by_cases hb : idx < 0 ∧ s.state.selected_index < 0 ∧ 1 < results.length
      · rw [handleSelect, if_pos hb]
        have hm1' : s.state.selected_index = -1 := by omega
        have hscr : s.state.scroll_offset = 0 := hsc0 hm1'
        rcases hmet with ⟨hm1, hm2⟩ | ⟨hm1, hm2, hm3⟩
        · rw [show ({ s.state with selected_index := 0 } : DState) =
              DState.mk s.state.scroll_offset 0 s.state.metrics
                s.state.last_terminal_height from rfl]
          rw [renderUpd_stable_mk h hh _ _ _ _ hm2 hm1]
          refine DispatchInv_mk h results s _ _ _ _ ?_ ?_ ?_
            (Or.inl ⟨hm1, hm2⟩)
          · right
            constructor <;> omega
          · intro _ hmv'
            rw [hscr]
            omega
          · intro habs
            omega
        · rw [show ({ s.state with selected_index := 0 } : DState) =
              DState.mk s.state.scroll_offset 0 s.state.metrics
                s.state.last_terminal_height from rfl]
          rw [renderUpd_dirty_mk h _ _ _ _ (by rw [hm1])]
          refine DispatchInv_mk h results s _ _ _ _ ?_ ?_ ?_
            (Or.inl ⟨rfl, rfl⟩)
          · right
            constructor <;> omega
          · intro _ hmv'
            rw [hm2]
            omega
          · intro habs
            omega
      · rw [handleSelect, if_neg hb]
        dsimp only
        split <;> exact ⟨hsel, hwin, hsc0, hmet⟩

/-- C5 counterexample: across a terminal resize the claimed viewport
invariant fails after a dispatched command.  Working on a 24-line terminal
(six visible rows, row 10 selected, scroll 5 — both claimed invariants
hold), the terminal shrinks to 12 lines; the next `MoveSelection 1` adjusts
the scroll with the stale `max_visible_results = 6` and only then render
remeasures to 2, ending with `selected_index = 11`, `scroll_offset = 6`,
`max_visible_results = 2`, so `selected_index < scroll_offset +
max_visible` is violated. -/
theorem c5_counterexample :
    SelInv results12 resizeState ∧ WinInv resizeState ∧
    SelInv results12
      (ioStep [] 12 results12 resizeState (Command.MoveSelection 1)) ∧
    ¬ WinInv (ioStep [] 12 results12 resizeState (Command.MoveSelection 1)) := by
  decide

/-- Concrete instantiation of `c5_dispatcher_invariants`: moving the
selection from the initial state on a one-result snapshot preserves the
invariants. -/
theorem c5_dispatcher_invariants_witness :
    (0 : Nat) < 20 ∧
    DispatchInv 20 [⟨0, 5⟩] ({} : AppState) ∧
    (DispatchInv 20 [⟨0, 5⟩]
        (ioStep [] 20 [⟨0, 5⟩] {} (Command.MoveSelection 1)) ∧
      SelInv [⟨0, 5⟩] (ioStep [] 20 [⟨0, 5⟩] {} (Command.MoveSelection 1)) ∧
      WinInv (ioStep [] 20 [⟨0, 5⟩] {} (Command.MoveSelection 1))) :=
  ⟨by omega, by decide,
    c5_dispatcher_invariants [] 20 [⟨0, 5⟩] (Command.MoveSelection 1) {}
      (by omega) (by decide)
      (fun st hst => by cases hst)⟩

end ExoSearch
